import Mathlib

/-!
Shallow embedding of the index-synthesis core of a package-index generator
(TypeScript source: `services/index-generator.ts`, `services/s3-client.ts`,
`generators/libtorch-html.ts`, `generators/simple-package-html.ts`,
`generators/simple-packages-html.ts`, and the worker entry point).

Strings are modelled as `List Char` (`Str`); the JavaScript string
primitives (`split`, `substring`, `replace`, `endsWith`, …) are modelled by
the corresponding character-list operations.  A JavaScript `Set` is
modelled as the list of its elements in insertion order, a
`Map<string, number>` as a total function `Str → Nat` defaulting to `0`
(matching `map.get(k) || 0`).  The wall clock read by the renderers
(`Math.floor(Date.now() / 1000)`) is passed as an explicit `now : Nat`
parameter.  The `semver.rcompare`-with-`localeCompare`-fallback version
comparator is an external library call and is kept as an abstract
parameter `vcmp`; `localeCompare` on sanitized ASCII object keys and the
default (code-unit) `Array.sort()` comparison are modelled by the
code-unit lexicographic order `lexLe`.
-/

/-- Character strings, modelled as lists of characters. -/
abbrev Str := List Char

/-- `path.substring(path.lastIndexOf("/") + 1)` — the part after the last
slash, or the whole string when there is no slash (the `basename` helper of
`S3Index`). -/
def basenameC (s : Str) : Str := (s.reverse.takeWhile (fun c => !(c == '/'))).reverse

/-- `lastSlash >= 0 ? path.substring(0, lastSlash) : ""` — the part before
the last slash, or empty when there is no slash (the `dirname` helper of
`S3Index`, also inlined in `listObjectsWithPrefix` and
`generateLibtorchHtml`). -/
def dirnameC (s : Str) : Str := ((s.reverse.dropWhile (fun c => !(c == '/'))).drop 1).reverse

/-- `s.toLowerCase()` on ASCII strings. -/
def toLowerStr (s : Str) : Str := s.map Char.toLower

/-- `s.replace(/_/g, "-")`. -/
def underToDash (s : Str) : Str := s.map (fun c => if c = '_' then '-' else c)

/-- `key.replace(/\+/g, "%2B")` — the `sanitizeKey` helper of
`s3-client.ts`. -/
def sanitizeKey : Str → Str
  | [] => []
  | c :: cs => if c = '+' then '%' :: '2' :: 'B' :: sanitizeKey cs else c :: sanitizeKey cs

/-- `key.replace(/%2B/g, "+")` — used for `origKey` in the worker entry
point and for display names in `generateSimplePackageHtml`. -/
def decode2B : Str → Str
  | '%' :: '2' :: 'B' :: cs => '+' :: decode2B cs
  | c :: cs => c :: decode2B cs
  | [] => []

/-- `s.replace(/%2B.*/, "")` — drops the first `%2B` and everything after
it up to (not including) the next newline, exactly as the regex `.`
matches. -/
def strip2B : Str → Str
  | '%' :: '2' :: 'B' :: cs => cs.dropWhile (fun c => !(c == '\n'))
  | c :: cs => c :: strip2B cs
  | [] => []

/-- `lines.join("\n")`. -/
def joinLines : List Str → Str
  | [] => []
  | [x] => x
  | x :: xs => x ++ '\n' :: joinLines xs

/-- Code-unit lexicographic comparison: `a.localeCompare(b) <= 0` as it
behaves on the ASCII object keys at hand, and the default comparison of
`Array.prototype.sort()`. -/
def lexLe : Str → Str → Bool
  | [], _ => true
  | _ :: _, [] => false
  | a :: as, b :: bs =>
    if a.toNat < b.toNat then true
    else if b.toNat < a.toNat then false
    else lexLe as bs

/-- The `S3Object` interface of `index-generator.ts`. -/
structure S3Obj where
  key : Str
  origKey : Str
  checksum : Option Str := none
  size : Option Nat := none
  pep658 : Option Str := none
deriving DecidableEq, Repr

/-- `S3Index.normalizePackageVersion`: first two dash-delimited segments of
the basename, with everything from the first `%2B` on removed; the whole
basename when it has fewer than two segments. -/
def normalizePackageVersion (obj : S3Obj) : Str :=
  let b := basenameC obj.key
  match b.splitOn '-' with
  | p0 :: p1 :: _ => strip2B (p0 ++ '-' :: p1)
  | _ => b

/-- `basename(normalized).split("-")[0]` — the package-name component a
normalized version is counted under in `nightlyPackagesToShow`. -/
def pkgOfNormalized (n : Str) : Str :=
  match (basenameC n).splitOn '-' with
  | p :: _ => p
  | [] => []

/-- `a.split("-")[1] || "0.0.0"` — the version component handed to the
external comparator in `nightlyPackagesToShow`. -/
def versionOf (n : Str) : Str :=
  match n.splitOn '-' with
  | _ :: v :: _ => if v = [] then "0.0.0".data else v
  | _ => "0.0.0".data

/-- Auxiliary for `uniqueInOrder`: keeps the elements not yet seen,
threading the set of already-seen elements. -/
def uniqueAux : List Str → List Str → List Str
  | [], _ => []
  | a :: l, seen => if seen.contains a then uniqueAux l seen else a :: uniqueAux l (a :: seen)

/-- `Array.from(new Set(xs))`: the distinct elements of `xs` in first-seen
order. -/
def uniqueInOrder (l : List Str) : List Str := uniqueAux l []

/-- The marking loop of `nightlyPackagesToShow`: walks the sorted
normalized versions keeping a per-package counter (`packageCounts`) and
the accumulated removal set (`toHide`); a version whose package name is
not on the allow-list is always hidden, otherwise it is hidden once the
counter has reached the keep-threshold `k`. -/
def hideLoop (allow : List Str) (k : Nat) : List Str → (Str → Nat) → List Str → ((Str → Nat) × List Str)
  | [], counts, hide => (counts, hide)
  | n :: rest, counts, hide =>
    if allow.contains (toLowerStr (pkgOfNormalized n)) then
      if k ≤ counts (pkgOfNormalized n) then
        hideLoop allow k rest counts (n :: hide)
      else
        hideLoop allow k rest (fun s => if s = pkgOfNormalized n then counts (pkgOfNormalized n) + 1 else counts s) hide
    else
      hideLoop allow k rest counts (n :: hide)

/-- The `sortedPackages` list of `nightlyPackagesToShow`: the distinct
normalized versions, sorted with the external version comparator `vcmp`
(`semver.rcompare` with a `localeCompare` fallback). -/
def retentionOrder (vcmp : Str → Str → Bool) (objects : List S3Obj) : List Str :=
  (uniqueInOrder (objects.map normalizePackageVersion)).insertionSort
    (fun a b => vcmp (versionOf a) (versionOf b) = true)

/-- The `toHide` set of `nightlyPackagesToShow`, computed by the marking
loop from empty counters. -/
def retentionHide (vcmp : Str → Str → Bool) (objects : List S3Obj) (allow : List Str) (k : Nat) : List Str :=
  (hideLoop allow k (retentionOrder vcmp objects) (fun _ => 0) []).2

/-- `S3Index.nightlyPackagesToShow`: collects the distinct normalized
versions, sorts them, runs the marking loop, and keeps the original
entries whose normalized version was not marked. -/
def nightlyPackagesToShow (vcmp : Str → Str → Bool) (objects : List S3Obj) (allow : List Str) (k : Nat) : List S3Obj :=
  objects.filter (fun o => !((retentionHide vcmp objects allow k).contains (normalizePackageVersion o)))

/-- `extensions.some((ext) => key.endsWith("." + ext))` — the
`hasAcceptedExtension` helper of `s3-client.ts`. -/
def hasAcceptedExtension (key : Str) (extensions : List Str) : Bool :=
  extensions.any (fun e => ('.' :: e).isSuffixOf key)

/-- The `matchesSubdirPattern` helper of `s3-client.ts`: accept the root
directory itself, otherwise take the characters of `dir` from index
`pfx.length + 1` on, reject when that remainder contains a slash, and
test it against the configured patterns.  (The code never checks that
`dir` actually starts with `pfx ++ "/"`.) -/
def matchesSubdirPattern (patterns : List (Str → Bool)) (dir pfx : Str) : Bool :=
  if dir == pfx then true
  else
    let relativePath := dir.drop (pfx.length + 1)
    if relativePath.contains '/' then false
    else patterns.any (fun p => p relativePath)

/-- The filtering body of `listObjectsWithPrefix` applied to the stream of
raw listed keys (the pagination loop concatenates the pages; an
absent/empty `obj.Key` is skipped, then the extension and
parent-directory tests run, and surviving keys are yielded sanitized). -/
def listObjectsWithPrefix (extensions : List Str) (patterns : List (Str → Bool)) (pfx : Str) (keys : List Str) : List Str :=
  let normalizedPfx := if pfx.getLast? == some '/' then pfx.dropLast else pfx
  keys.filterMap (fun k =>
    if k = [] then none
    else if !hasAcceptedExtension k extensions then none
    else if !matchesSubdirPattern patterns (dirnameC k) normalizedPfx then none
    else some (sanitizeKey k))

/-- `/^cu[0-9]+$/` from the worker configuration. -/
def patCu : Str → Bool
  | 'c' :: 'u' :: rest => !rest.isEmpty && rest.all Char.isDigit
  | _ => false

/-- `/^rocm[0-9]+\.[0-9]+$/` from the worker configuration. -/
def patRocm : Str → Bool
  | 'r' :: 'o' :: 'c' :: 'm' :: rest =>
    match rest.splitOn '.' with
    | [a, b] => !a.isEmpty && a.all Char.isDigit && !b.isEmpty && b.all Char.isDigit
    | _ => false
  | _ => false

/-- `/^cpu$/` from the worker configuration. -/
def patCpu (s : Str) : Bool := s == "cpu".data

/-- `/^xpu$/` from the worker configuration. -/
def patXpu (s : Str) : Bool := s == "xpu".data

/-- `acceptedSubdirPatterns` from the worker configuration. -/
def configPatterns : List (Str → Bool) := [patCu, patRocm, patCpu, patXpu]

/-- `acceptedFileExtensions` from the worker configuration. -/
def configExtensions : List Str := ["whl".data, "zip".data, "tar.gz".data, "json".data]

/-- A character of the base64 alphabet as accepted by
`MULTIPART_UPLOAD_REGEX`'s class `[A-Za-z0-9+/=]`. -/
def isB64Class (c : Char) : Bool := c.isAlpha || c.isDigit || c == '+' || c == '/' || c == '='

/-- `MULTIPART_UPLOAD_REGEX = /^[A-Za-z0-9+/=]+=-[0-9]+$/`: one or more
base64-class characters, then a literal `=`, a dash, and one or more
digits.  Both character classes exclude `-`, so a match has exactly one
dash; the part before it has length at least two, consists of base64
characters, and ends with `=`; the part after it is a nonempty digit
string. -/
def multipartMatch (s : Str) : Bool :=
  match s.splitOn '-' with
  | [p, d] =>
    decide (2 ≤ p.length) && p.all isB64Class && (p.getLast? == some '=')
      && !d.isEmpty && d.all Char.isDigit
  | _ => false

/-- The value of a base64 digit, accepting both the standard and the
URL-safe alphabet, as Node's `Buffer.from(s, "base64")` does. -/
def b64Val (c : Char) : Option Nat :=
  if 'A' ≤ c && c ≤ 'Z' then some (c.toNat - 'A'.toNat)
  else if 'a' ≤ c && c ≤ 'z' then some (c.toNat - 'a'.toNat + 26)
  else if '0' ≤ c && c ≤ '9' then some (c.toNat - '0'.toNat + 52)
  else if c == '+' || c == '-' then some 62
  else if c == '/' || c == '_' then some 63
  else none

/-- Groups of base64 digit values to bytes: four digits give three bytes,
a trailing three give two, a trailing two give one, and a lone trailing
digit is dropped. -/
def b64Bytes : List Nat → List Nat
  | a :: b :: c :: d :: rest =>
    (a * 4 + b / 16) :: ((b % 16) * 16 + c / 4) :: ((c % 4) * 64 + d) :: b64Bytes rest
  | [a, b, c] => [a * 4 + b / 16, (b % 16) * 16 + c / 4]
  | [a, b] => [a * 4 + b / 16]
  | _ => []

/-- A byte rendered as two lowercase hex digits. -/
def hexByte (n : Nat) : Str := [(Nat.digitChar (n / 16)), (Nat.digitChar (n % 16))]

/-- `Buffer.from(s, "base64").toString("hex")`: decode the leading run of
base64 digits (Node also accepts the URL-safe alphabet; padding or an
invalid character ends the input) and print the bytes as lowercase hex.
The decode never throws, so the `catch` branch of `parseChecksum` is
unreachable. -/
def base64ToHex (s : Str) : Str :=
  (b64Bytes ((s.takeWhile (fun c => (b64Val c).isSome)).filterMap b64Val)).flatMap hexByte

/-- The fields of an S3 `HeadObject` response that `parseChecksum` reads:
the optional `ChecksumSHA256` header and the optional user-metadata
dictionary. -/
structure HeadResp where
  checksumSHA256 : Option Str := none
  metadata : Option (List (Str × Str)) := none

/-- `response.Metadata[k]`. -/
def lookupMeta (m : List (Str × Str)) (k : Str) : Option Str :=
  (m.find? (fun p => p.1 == k)).map (fun p => p.2)

/-- JavaScript `a || b` on optional strings: `b` when `a` is absent or
empty. -/
def orFalsy (a b : Option Str) : Option Str :=
  match a with
  | some v => if v = [] then b else some v
  | none => b

/-- `parseChecksum` of `s3-client.ts`: a present `ChecksumSHA256` is
discarded when it matches `MULTIPART_UPLOAD_REGEX`, otherwise decoded
from base64 to lowercase hex; with no `ChecksumSHA256`, fall back to the
`checksum-sha256` / `x-amz-meta-checksum-sha256` metadata fields. -/
def parseChecksum (r : HeadResp) : Option Str :=
  match r.checksumSHA256 with
  | some s => if multipartMatch s then none else some (base64ToHex s)
  | none =>
    match r.metadata with
    | some m => orFalsy (lookupMeta m "checksum-sha256".data) (lookupMeta m "x-amz-meta-checksum-sha256".data)
    | none => none

/-- The trailing generation-time comment
`` `<!--TIMESTAMP ${Math.floor(Date.now() / 1000)}-->` ``. -/
def tsComment (now : Nat) : Str := "<!--TIMESTAMP ".data ++ (toString now).data ++ "-->".data

/-- The attribute string built for one entry by `generateSimplePackageHtml`:
the PEP 658/714 metadata attributes when `pep658` is present (and truthy),
plus the hardcoded `data-requires-python` override for the two networkx
filenames. -/
def linkAttrs (obj : S3Obj) : Str :=
  let a1 :=
    match obj.pep658 with
    | some p =>
      if p = [] then []
      else " data-dist-info-metadata=\"sha256=".data ++ p ++ "\" data-core-metadata=\"sha256=".data ++ p ++ "\"".data
    | none => []
  let a2 :=
    if ("networkx-3.3-py3-none-any.whl".data.isSuffixOf obj.key)
        || ("networkx-3.4.2-py3-none-any.whl".data.isSuffixOf obj.key) then
      " data-requires-python=\"&gt;=3.10\"".data
    else []
  a1 ++ a2

/-- The link line built for one entry by the loop body of
`generateSimplePackageHtml`: display name is the filename with `%2B`
restored to `+`; the `#sha256=` fragment is attached only when the entry
has a (truthy) checksum and the feed is not nightly. -/
def renderLink (isNightly : Bool) (obj : S3Obj) : Str :=
  let lastSlash := basenameC obj.key
  let displayName := decode2B lastSlash
  let maybeFragment :=
    match obj.checksum with
    | some c => if !c.isEmpty && !isNightly then "#sha256=".data ++ c else []
    | none => []
  "    <a href=\"/".data ++ obj.key ++ maybeFragment ++ "\"".data ++ linkAttrs obj
    ++ ">".data ++ displayName ++ "</a><br/>".data

/-- `[...objects].sort((a, b) => a.key.localeCompare(b.key))` — the sort at
the top of `generateSimplePackageHtml`, with `localeCompare` modelled as
code-unit lexicographic comparison. -/
def sortByKey (objects : List S3Obj) : List S3Obj :=
  objects.insertionSort (fun a b => lexLe a.key b.key = true)

/-- `generateSimplePackageHtml`: header with the display package name
(lower-cased, underscores to dashes), one link line per entry in
ascending key order, closing tags, and the timestamp comment. -/
def generateSimplePackageHtml (objects : List S3Obj) (packageName : Str) (isNightly : Bool) (now : Nat) : Str :=
  joinLines
    (["<!DOCTYPE html>".data, "<html>".data, "  <body>".data,
      "    <h1>Links for ".data ++ underToDash (toLowerStr packageName) ++ "</h1>".data]
      ++ (sortByKey objects).map (renderLink isNightly)
      ++ ["  </body>".data, "</html>".data, tsComment now])

/-- `Array.from(packageNames).sort()` — default code-unit sort of the
package-name set (modelled as the list of the set's elements). -/
def sortNames (names : List Str) : List Str :=
  names.insertionSort (fun a b => lexLe a b = true)

/-- `generateSimplePackagesHtml`: header, one link per package name in
ascending order with underscores displayed as dashes, closing tags, and
the timestamp comment. -/
def generateSimplePackagesHtml (packageNames : List Str) (now : Nat) : Str :=
  joinLines
    (["<!DOCTYPE html>".data, "<html>".data, "  <body>".data]
      ++ (sortNames packageNames).map (fun pkgName =>
        "    <a href=\"".data ++ underToDash pkgName ++ "/\">".data
          ++ underToDash pkgName ++ "</a><br/>".data)
      ++ ["  </body>".data, "</html>".data, tsComment now])

/-- The entry line built by `generateLibtorchHtml` for one object once it
survives the root filter: the key with the subdirectory (and a leading
slash) stripped is the display text. -/
def libtorchEntry (subdir : Str) (obj : S3Obj) : Str :=
  let s1 := if subdir.isPrefixOf obj.key then obj.key.drop subdir.length else obj.key
  let s2 := if s1.head? == some '/' then s1.drop 1 else s1
  "<a href=\"/".data ++ obj.key ++ "\">".data ++ s2 ++ "</a><br/>".data

/-- `generateLibtorchHtml`: skip entries whose directory is the feed root
when rendering a non-root subdirectory, build one link per surviving
entry, sort the entry strings (default code-unit sort), and join them —
the function emits no HTML wrapper and no timestamp comment. -/
def generateLibtorchHtml (objects : List S3Obj) (subdir pfx : Str) : Str :=
  let isRoot := subdir == pfx
  let entries := objects.filterMap (fun obj =>
    if !isRoot && (dirnameC obj.key == pfx) then none
    else some (libtorchEntry subdir obj))
  joinLines (entries.insertionSort (fun a b => lexLe a b = true))

/-- The construction of catalog entries in the worker's `processPrefix`:
each listed (already sanitized) key becomes an `S3Object` with `origKey`
the key with `%2B` restored to `+` and no metadata yet. -/
def mkEntry (key : Str) : S3Obj :=
  { key := key, origKey := decode2B key }

/-- Modelled from the spec's words, for comparison with the code: the
Catalog Filter contract's parent-directory condition — the parent equals
the feed prefix, or is a direct child `pfx ++ "/" ++ seg` whose slash-free
segment matches one of the patterns. -/
def specDirAccepts (patterns : List (Str → Bool)) (pfx dir : Str) : Bool :=
  dir == pfx
    || ((pfx ++ ['/']).isPrefixOf dir
        && !(dir.drop (pfx.length + 1)).contains '/'
        && patterns.any (fun p => p (dir.drop (pfx.length + 1))))

/-- Modelled from the spec's words, for comparison with the code: a
"multipart-upload composite digest" shape — a nonempty base64 payload,
a dash, and a nonempty digit part-count. -/
def specCompositeShape (s : Str) : Bool :=
  match s.splitOn '-' with
  | [p, d] => !p.isEmpty && p.all isB64Class && !d.isEmpty && d.all Char.isDigit
  | _ => false

/-- Erasing the enrichment checksum of an entry. -/
def eraseChecksum (obj : S3Obj) : S3Obj := { obj with checksum := none }

example : normalizePackageVersion ⟨"whl/nightly/foo-1.0%2Bcpu-x.whl".data, [], none, none, none⟩ = "foo-1.0".data := by decide

example : sanitizeKey "a+b".data = "a%2Bb".data := by decide

example : decode2B "a%2Bb".data = "a+b".data := by decide

example : base64ToHex "YWJj".data = "616263".data := by decide

example : multipartMatch "YWJjZA==-5".data = true := by decide

example : multipartMatch "YWJj-2".data = false := by decide

/-! Helper lemmas about the string and list primitives. -/

theorem joinLines_append_singleton (x : Str) : ∀ (l : List Str), l ≠ [] → joinLines (l ++ [x]) = joinLines l ++ '\n' :: x
  | [], h => absurd rfl h
  | [y], _ => by simp [joinLines]
  | y :: z :: t, _ => by
    have ih := joinLines_append_singleton x (z :: t) (by simp)
    simp only [List.cons_append, List.append_eq, joinLines] at ih ⊢
    rw [ih, List.append_assoc]
    rfl

theorem joinLines_cons_eq_nil : ∀ (z : Str) (t : List Str), joinLines (z :: t) = [] → z = [] ∧ t = []
  | z, [], h => ⟨h, rfl⟩
  | z, w :: t₂, h => by
    simp only [joinLines] at h
    rcases List.append_eq_nil.mp h with ⟨_, h2⟩
    exact absurd h2 (by simp)

theorem joinLines_suffix (suf : Str) : ∀ (l : List Str), (∀ x ∈ l, ∃ t, x = t ++ suf) → joinLines l = [] ∨ ∃ t, joinLines l = t ++ suf
  | [], _ => Or.inl rfl
  | [y], h => by
    right
    simpa [joinLines] using h y (by simp)
  | y :: z :: t, h => by
    right
    rcases joinLines_suffix suf (z :: t) (fun x hx => h x (List.mem_cons_of_mem _ hx)) with h0 | ⟨u, hu⟩
    · rcases joinLines_cons_eq_nil z t h0 with ⟨hz, ht⟩
      rcases h z (by simp) with ⟨tz, htz⟩
      have hsuf : suf = [] := by
        have := htz.symm.trans hz
        exact (List.append_eq_nil.mp this).2
      exact ⟨joinLines (y :: z :: t), by simp [hsuf]⟩
    · refine ⟨y ++ '\n' :: u, ?_⟩
      simp only [joinLines, hu]
      simp

theorem lexLe_total : ∀ a b : Str, lexLe a b = true ∨ lexLe b a = true
  | [], _ => Or.inl rfl
  | _ :: _, [] => Or.inr rfl
  | a :: as, b :: bs => by
    by_cases h1 : a.toNat < b.toNat
    · left; simp [lexLe, h1]
    · by_cases h2 : b.toNat < a.toNat
      · right; simp [lexLe, h2]
      · rcases lexLe_total as bs with h | h
        · left; simp [lexLe, h1, h2, h]
        · right; simp [lexLe, h1, h2, h]

theorem lexLe_trans : ∀ a b c : Str, lexLe a b = true → lexLe b c = true → lexLe a c = true
  | [], _, _, _, _ => rfl
  | a :: as, [], _, h1, _ => by simp [lexLe] at h1
  | a :: as, b :: bs, [], _, h2 => by simp [lexLe] at h2
  | a :: as, b :: bs, c :: cs, h1, h2 => by
    simp only [lexLe] at h1 h2 ⊢
    by_cases hab : a.toNat < b.toNat
    · by_cases hbc : b.toNat < c.toNat
      · have hac : a.toNat < c.toNat := Nat.lt_trans hab hbc
        simp [hac]
      · by_cases hcb : c.toNat < b.toNat
        · simp [hbc, hcb] at h2
        · have hac : a.toNat < c.toNat := by omega
          simp [hac]
    · by_cases hba : b.toNat < a.toNat
      · simp [hab, hba] at h1
      · have h1' : lexLe as bs = true := by simpa [hab, hba] using h1
        by_cases hbc : b.toNat < c.toNat
        · have hac : a.toNat < c.toNat := by omega
          simp [hac]
        · by_cases hcb : c.toNat < b.toNat
          · simp [hbc, hcb] at h2
          · have h2' : lexLe bs cs = true := by simpa [hbc, hcb] using h2
            have hnac : ¬ a.toNat < c.toNat := by omega
            have hnca : ¬ c.toNat < a.toNat := by omega
            simp [hnac, hnca]
            exact lexLe_trans as bs cs h1' h2'

theorem contains_true_iff {α : Type} [BEq α] [LawfulBEq α] {l : List α} {x : α} : l.contains x = true ↔ x ∈ l := by
  simp

theorem mem_uniqueAux {x : Str} : ∀ (l seen : List Str), x ∈ uniqueAux l seen ↔ x ∈ l ∧ x ∉ seen := by
  intro l
  induction l with
  | nil => intro seen; simp [uniqueAux]
  | cons a t ih =>
    intro seen
    simp only [uniqueAux]
    by_cases hc : seen.contains a = true
    · rw [if_pos hc]
      have ha : a ∈ seen := contains_true_iff.mp hc
      rw [ih seen]
      simp only [List.mem_cons]
      constructor
      · rintro ⟨h1, h2⟩; exact ⟨Or.inr h1, h2⟩
      · rintro ⟨h1 | h1, h2⟩
        · exact absurd (h1 ▸ ha) h2
        · exact ⟨h1, h2⟩
    · rw [if_neg hc]
      have ha : a ∉ seen := fun hm => hc (contains_true_iff.mpr hm)
      simp only [List.mem_cons, ih (a :: seen), List.mem_cons, not_or]
      constructor
      · rintro (rfl | ⟨h1, h2, h3⟩)
        · exact ⟨Or.inl rfl, ha⟩
        · exact ⟨Or.inr h1, h3⟩
      · rintro ⟨h1 | h1, h2⟩
        · exact Or.inl h1
        · by_cases hx : x = a
          · exact Or.inl hx
          · exact Or.inr ⟨h1, hx, h2⟩

theorem nodup_uniqueAux : ∀ (l seen : List Str), (uniqueAux l seen).Nodup := by
  intro l
  induction l with
  | nil => intro seen; simp [uniqueAux]
  | cons a t ih =>
    intro seen
    simp only [uniqueAux]
    by_cases hc : seen.contains a = true
    · rw [if_pos hc]; exact ih seen
    · rw [if_neg hc]
      refine List.nodup_cons.mpr ⟨fun hm => ?_, ih (a :: seen)⟩
      exact ((mem_uniqueAux t (a :: seen)).mp hm).2 (List.mem_cons_self a seen)

theorem mem_uniqueInOrder {x : Str} : ∀ {l : List Str}, x ∈ uniqueInOrder l ↔ x ∈ l := by
  intro l
  rw [uniqueInOrder, mem_uniqueAux]
  simp

theorem nodup_uniqueInOrder (l : List Str) : (uniqueInOrder l).Nodup := nodup_uniqueAux l []

theorem plus_not_mem_sanitizeKey : ∀ l : Str, '+' ∉ sanitizeKey l := by
  intro l
  induction l with
  | nil => simp [sanitizeKey]
  | cons c cs ih =>
    by_cases hc : c = '+' <;> simp [sanitizeKey, hc, ih]
    exact fun h => hc h.symm

theorem decode2B_cons_ne (c : Char) (cs : Str) (h : ∀ cs', ¬(c = '%' ∧ cs = '2' :: 'B' :: cs')) : decode2B (c :: cs) = c :: decode2B cs := by
  rw [decode2B.eq_def]
  split
  · rename_i cs' heq
    rw [List.cons_eq_cons] at heq
    exact absurd ⟨heq.1, by simpa using heq.2⟩ (h cs')
  · rename_i c2 cs2 hne2 heq
    rw [List.cons_eq_cons] at heq
    rw [heq.1, heq.2]
  · rename_i heq
    exact absurd heq (by simp)

theorem sanitizeKey_decode2B : ∀ l : Str, '+' ∉ l → sanitizeKey (decode2B l) = l := by
  intro l
  induction l using decode2B.induct with
  | case1 cs ih =>
    intro h
    have h' : '+' ∉ cs := fun hc => h (by simp [hc])
    simp [decode2B, sanitizeKey, ih h']
  | case2 c cs hne ih =>
    intro h
    have hc : ¬ c = '+' := fun hc => h (by simp [hc])
    have h' : '+' ∉ cs := fun hm => h (List.mem_cons_of_mem _ hm)
    rw [decode2B_cons_ne c cs (fun cs' hand => hne cs' hand.1 hand.2)]
    simp [sanitizeKey, hc, ih h']
  | case3 =>
    intro _
    rfl

theorem hideLoop_hide_sub (allow : List Str) (k : Nat) : ∀ (ns : List Str) (counts : Str → Nat) (hide : List Str), hide ⊆ (hideLoop allow k ns counts hide).2 := by
  intro ns
  induction ns with
  | nil => intro counts hide; simp [hideLoop]
  | cons n rest ih =>
    intro counts hide
    simp only [hideLoop]
    by_cases hA : allow.contains (toLowerStr (pkgOfNormalized n)) = true
    · rw [if_pos hA]
      by_cases hK : k ≤ counts (pkgOfNormalized n)
      · rw [if_pos hK]
        exact fun x hx => ih counts (n :: hide) (List.mem_cons_of_mem _ hx)
      · rw [if_neg hK]
        exact ih _ hide
    · rw [if_neg hA]
      exact fun x hx => ih counts (n :: hide) (List.mem_cons_of_mem _ hx)

theorem hideLoop_final_sub (allow : List Str) (k : Nat) : ∀ (ns : List Str) (counts : Str → Nat) (hide : List Str), (hideLoop allow k ns counts hide).2 ⊆ ns ++ hide := by
  intro ns
  induction ns with
  | nil => intro counts hide; simp [hideLoop]
  | cons n rest ih =>
    intro counts hide
    simp only [hideLoop]
    by_cases hA : allow.contains (toLowerStr (pkgOfNormalized n)) = true
    · rw [if_pos hA]
      by_cases hK : k ≤ counts (pkgOfNormalized n)
      · rw [if_pos hK]
        intro x hx
        rcases List.mem_append.mp (ih counts (n :: hide) hx) with h | h
        · exact List.mem_append.mpr (Or.inl (List.mem_cons_of_mem _ h))
        · rcases List.mem_cons.mp h with h | h
          · exact List.mem_append.mpr (Or.inl (h ▸ List.mem_cons_self _ _))
          · exact List.mem_append.mpr (Or.inr h)
      · rw [if_neg hK]
        intro x hx
        rcases List.mem_append.mp (ih _ hide hx) with h | h
        · exact List.mem_append.mpr (Or.inl (List.mem_cons_of_mem _ h))
        · exact List.mem_append.mpr (Or.inr h)
    · rw [if_neg hA]
      intro x hx
      rcases List.mem_append.mp (ih counts (n :: hide) hx) with h | h
      · exact List.mem_append.mpr (Or.inl (List.mem_cons_of_mem _ h))
      · rcases List.mem_cons.mp h with h | h
        · exact List.mem_append.mpr (Or.inl (h ▸ List.mem_cons_self _ _))
        · exact List.mem_append.mpr (Or.inr h)

theorem hideLoop_kept_allowed (allow : List Str) (k : Nat) : ∀ (ns : List Str) (counts : Str → Nat) (hide : List Str) (n : Str), n ∈ ns → n ∉ (hideLoop allow k ns counts hide).2 → allow.contains (toLowerStr (pkgOfNormalized n)) = true := by
  intro ns
  induction ns with
  | nil => intro counts hide n hn; exact absurd hn (List.not_mem_nil n)
  | cons m rest ih =>
    intro counts hide n hn hkept
    simp only [hideLoop] at hkept
    by_cases hA : allow.contains (toLowerStr (pkgOfNormalized m)) = true
    · rw [if_pos hA] at hkept
      by_cases hK : k ≤ counts (pkgOfNormalized m)
      · rw [if_pos hK] at hkept
        rcases List.mem_cons.mp hn with h | h
        · exact absurd (hideLoop_hide_sub allow k rest counts (m :: hide) (h ▸ List.mem_cons_self m hide)) hkept
        · exact ih counts (m :: hide) n h hkept
      · rw [if_neg hK] at hkept
        rcases List.mem_cons.mp hn with h | h
        · exact h ▸ hA
        · exact ih _ hide n h hkept
    · rw [if_neg hA] at hkept
      rcases List.mem_cons.mp hn with h | h
      · exact absurd (hideLoop_hide_sub allow k rest counts (m :: hide) (h ▸ List.mem_cons_self m hide)) hkept
      · exact ih counts (m :: hide) n h hkept

theorem contains_false_of_not_mem {α : Type} [BEq α] [LawfulBEq α] {l : List α} {x : α} (h : x ∉ l) : l.contains x = false := by
  cases hc : l.contains x
  · rfl
  · exact absurd (contains_true_iff.mp hc) h

theorem hideLoop_count_le (allow : List Str) (k : Nat) : ∀ (ns : List Str) (counts : Str → Nat) (hide : List Str), ns.Nodup → (∀ x ∈ ns, x ∉ hide) → (∀ name, counts name ≤ k) → ∀ name : Str, counts name + (ns.filter (fun n => !((hideLoop allow k ns counts hide).2.contains n) && (pkgOfNormalized n == name))).length ≤ k := by
  intro ns
  induction ns with
  | nil =>
    intro counts hide _ _ hcnt name
    simpa using hcnt name
  | cons n rest ih =>
    intro counts hide hnd hdisj hcnt name
    have hn_rest : n ∉ rest := (List.nodup_cons.mp hnd).1
    have hrest_nd : rest.Nodup := (List.nodup_cons.mp hnd).2
    have hn_hide : n ∉ hide := hdisj n (List.mem_cons_self n rest)
    have hdisj_push : ∀ x ∈ rest, x ∉ n :: hide := by
      intro x hx
      simp only [List.mem_cons, not_or]
      exact ⟨fun hxe => hn_rest (hxe ▸ hx), hdisj x (List.mem_cons_of_mem _ hx)⟩
    simp only [hideLoop]
    by_cases hA : allow.contains (toLowerStr (pkgOfNormalized n)) = true
    · rw [if_pos hA]
      by_cases hK : k ≤ counts (pkgOfNormalized n)
      · -- over-threshold: n is hidden
        rw [if_pos hK]
        have hc : ((hideLoop allow k rest counts (n :: hide)).2.contains n) = true :=
          contains_true_iff.mpr (hideLoop_hide_sub allow k rest counts (n :: hide) (List.mem_cons_self n hide))
        simp only [List.filter_cons, hc, Bool.not_true, Bool.false_and, if_false]
        exact ih counts (n :: hide) hrest_nd hdisj_push hcnt name
      · -- kept: counter incremented
        rw [if_neg hK]
        have hnotin : n ∉ (hideLoop allow k rest (fun s => if s = pkgOfNormalized n then counts (pkgOfNormalized n) + 1 else counts s) hide).2 := by
          intro hmem
          rcases List.mem_append.mp (hideLoop_final_sub allow k rest _ hide hmem) with h | h
          · exact hn_rest h
          · exact hn_hide h
        have hc : ((hideLoop allow k rest (fun s => if s = pkgOfNormalized n then counts (pkgOfNormalized n) + 1 else counts s) hide).2.contains n) = false :=
          contains_false_of_not_mem hnotin
        have hcnt' : ∀ name', (fun s => if s = pkgOfNormalized n then counts (pkgOfNormalized n) + 1 else counts s) name' ≤ k := by
          intro name'
          by_cases hcase : name' = pkgOfNormalized n
          · simpa [hcase] using Nat.lt_of_not_le hK
          · simpa [hcase] using hcnt name'
        have hdisj' : ∀ x ∈ rest, x ∉ hide := fun x hx => hdisj x (List.mem_cons_of_mem _ hx)
        have ihx := ih (fun s => if s = pkgOfNormalized n then counts (pkgOfNormalized n) + 1 else counts s) hide hrest_nd hdisj' hcnt' name
        simp only [List.filter_cons, hc, Bool.not_false, Bool.true_and]
        by_cases hbeq : pkgOfNormalized n = name
        · simp only [hbeq, beq_self_eq_true, if_true, List.length_cons]
          rw [if_pos hbeq.symm] at ihx
          rw [hbeq] at ihx
          omega
        · have : (pkgOfNormalized n == name) = false := beq_eq_false_iff_ne.mpr hbeq
          simp only [this, if_false]
          rw [if_neg (fun h => hbeq h.symm)] at ihx
          exact ihx
    · -- not on allow-list: n is hidden
      rw [if_neg hA]
      have hc : ((hideLoop allow k rest counts (n :: hide)).2.contains n) = true :=
        contains_true_iff.mpr (hideLoop_hide_sub allow k rest counts (n :: hide) (List.mem_cons_self n hide))
      simp only [List.filter_cons, hc, Bool.not_true, Bool.false_and, if_false]
      exact ih counts (n :: hide) hrest_nd hdisj_push hcnt name

theorem hideLoop_no_new (allow : List Str) (k : Nat) : ∀ (ns : List Str) (counts : Str → Nat) (hide : List Str), (∀ n ∈ ns, allow.contains (toLowerStr (pkgOfNormalized n)) = true) → (∀ name, counts name + (ns.filter (fun n => pkgOfNormalized n == name)).length ≤ k) → (hideLoop allow k ns counts hide).2 = hide := by
  intro ns
  induction ns with
  | nil =>
    intro counts hide _ _
    simp [hideLoop]
  | cons n rest ih =>
    intro counts hide hall hbound
    have hA : allow.contains (toLowerStr (pkgOfNormalized n)) = true := hall n (List.mem_cons_self n rest)
    have hhead : (rest.filter (fun m => pkgOfNormalized m == pkgOfNormalized n)).length + 1 = ((n :: rest).filter (fun m => pkgOfNormalized m == pkgOfNormalized n)).length := by
      simp [List.filter_cons]
    have hlt : counts (pkgOfNormalized n) < k := by
      have := hbound (pkgOfNormalized n)
      omega
    simp only [hideLoop]
    rw [if_pos hA, if_neg (Nat.not_le_of_lt hlt)]
    apply ih _ hide (fun m hm => hall m (List.mem_cons_of_mem _ hm))
    intro name
    by_cases hbeq : pkgOfNormalized n = name
    · have hbound' := hbound name
      simp only [List.filter_cons, hbeq, beq_self_eq_true, if_true, List.length_cons] at hbound'
      rw [if_pos hbeq.symm, hbeq]
      rw [hbeq] at hlt
      omega
    · have hbound' := hbound name
      have hne : (pkgOfNormalized n == name) = false := beq_eq_false_iff_ne.mpr hbeq
      simp only [List.filter_cons, hne, if_false] at hbound'
      rw [if_neg (fun h : name = pkgOfNormalized n => hbeq h.symm)]
      exact hbound'

theorem mem_retentionOrder {vcmp : Str → Str → Bool} {objects : List S3Obj} {x : Str} : x ∈ retentionOrder vcmp objects ↔ x ∈ objects.map normalizePackageVersion := by
  rw [retentionOrder, (List.perm_insertionSort _ _).mem_iff, mem_uniqueInOrder]

theorem nodup_retentionOrder (vcmp : Str → Str → Bool) (objects : List S3Obj) : (retentionOrder vcmp objects).Nodup := by
  rw [retentionOrder]
  exact ((List.perm_insertionSort _ _).nodup_iff).mpr (nodup_uniqueInOrder _)

theorem mem_nightlyPackagesToShow {vcmp : Str → Str → Bool} {objects : List S3Obj} {allow : List Str} {k : Nat} {o : S3Obj} : o ∈ nightlyPackagesToShow vcmp objects allow k ↔ o ∈ objects ∧ normalizePackageVersion o ∉ retentionHide vcmp objects allow k := by
  rw [nightlyPackagesToShow, List.mem_filter]
  constructor
  · rintro ⟨h1, h2⟩
    refine ⟨h1, fun hm => ?_⟩
    rw [contains_true_iff.mpr hm] at h2
    simp at h2
  · rintro ⟨h1, h2⟩
    exact ⟨h1, by rw [contains_false_of_not_mem h2]; rfl⟩

/-! The claims. -/

/-- Claim C1: for every object set, allow-list and keep-threshold (and any
behaviour of the external version comparator), the retention filter's
output contains at most `k` distinct RetentionKeys (normalized versions)
per package name, and every retained entry's package name, lower-cased,
is on the allow-list. -/
theorem c1_retention_threshold_and_allowlist (vcmp : Str → Str → Bool) (objects : List S3Obj) (allow : List Str) (k : Nat) :
    (∀ o ∈ nightlyPackagesToShow vcmp objects allow k,
      allow.contains (toLowerStr (pkgOfNormalized (normalizePackageVersion o))) = true)
    ∧ ∀ name : Str,
      (((nightlyPackagesToShow vcmp objects allow k).map normalizePackageVersion).dedup.filter
        (fun n => pkgOfNormalized n == name)).length ≤ k := by
  constructor
  · intro o ho
    rcases mem_nightlyPackagesToShow.mp ho with ⟨hin, hnot⟩
    exact hideLoop_kept_allowed allow k (retentionOrder vcmp objects) (fun _ => 0) [] _
      (mem_retentionOrder.mpr (List.mem_map_of_mem _ hin)) hnot
  · intro name
    have hcount := hideLoop_count_le allow k (retentionOrder vcmp objects) (fun _ => 0) []
      (nodup_retentionOrder vcmp objects) (by simp) (fun _ => Nat.zero_le k) name
    have hsub : (((nightlyPackagesToShow vcmp objects allow k).map normalizePackageVersion).dedup.filter
        (fun n => pkgOfNormalized n == name))
        ⊆ ((retentionOrder vcmp objects).filter
          (fun n => !((hideLoop allow k (retentionOrder vcmp objects) (fun _ => 0) []).2.contains n) && (pkgOfNormalized n == name))) := by
      intro x hx
      rcases List.mem_filter.mp hx with ⟨hx1, hx2⟩
      rcases List.mem_map.mp (List.mem_dedup.mp hx1) with ⟨o, ho, rfl⟩
      rcases mem_nightlyPackagesToShow.mp ho with ⟨hin, hnot⟩
      refine List.mem_filter.mpr ⟨mem_retentionOrder.mpr (List.mem_map_of_mem _ hin), ?_⟩
      have hcont : (hideLoop allow k (retentionOrder vcmp objects) (fun _ => 0) []).2.contains (normalizePackageVersion o) = false :=
        contains_false_of_not_mem hnot
      rw [hcont, hx2]
      rfl
    have hnd : ((((nightlyPackagesToShow vcmp objects allow k).map normalizePackageVersion).dedup.filter
        (fun n => pkgOfNormalized n == name))).Nodup := (List.nodup_dedup _).filter _
    have hlen := List.Subperm.length_le (hnd.subperm hsub)
    omega

/-- Demonstration catalog for the retention witnesses, following the
spec's worked example: three `foo` versions and one disallowed `bar`. -/
def fooBarObjs : List S3Obj :=
  [mkEntry "whl/nightly/foo-3.0-x.whl".data, mkEntry "whl/nightly/foo-2.0-x.whl".data,
   mkEntry "whl/nightly/foo-1.0-x.whl".data, mkEntry "whl/nightly/bar-1.0-x.whl".data]

/-- A concrete stand-in for the external version comparator: reverse
code-unit order (most recent first for these versions). -/
def vcmpDemo : Str → Str → Bool := fun a b => lexLe b a

/-- Witness for C1 at the spec's worked example: with threshold 2 and
allow-list `{foo}`, the entry `foo-3.0` is retained and its package name
is on the allow-list. -/
theorem c1_retention_threshold_and_allowlist_witness :
    (mkEntry "whl/nightly/foo-3.0-x.whl".data ∈ nightlyPackagesToShow vcmpDemo fooBarObjs ["foo".data] 2)
    ∧ ["foo".data].contains (toLowerStr (pkgOfNormalized (normalizePackageVersion (mkEntry "whl/nightly/foo-3.0-x.whl".data)))) = true :=
  ⟨by decide,
    (c1_retention_threshold_and_allowlist vcmpDemo fooBarObjs ["foo".data] 2).1
      (mkEntry "whl/nightly/foo-3.0-x.whl".data) (by decide)⟩

/-- Claim C10: the retention filter's output is an order-preserving
sub-list of its input (every retained entry is an input entry, kept
unchanged and in order), and each retained entry occurs exactly as often
as in the input. -/
theorem c10_retention_sublist (vcmp : Str → Str → Bool) (objects : List S3Obj) (allow : List Str) (k : Nat) :
    (nightlyPackagesToShow vcmp objects allow k).Sublist objects
    ∧ ∀ o ∈ nightlyPackagesToShow vcmp objects allow k,
      (nightlyPackagesToShow vcmp objects allow k).count o = objects.count o := by
  constructor
  · exact List.filter_sublist objects
  · intro o ho
    rw [nightlyPackagesToShow] at ho ⊢
    exact List.count_filter (List.mem_filter.mp ho).2

/-- Witness for C10 at the worked example: the retained `foo-3.0` entry
occurs in the output exactly as often as in the input. -/
theorem c10_retention_sublist_witness :
    (mkEntry "whl/nightly/foo-3.0-x.whl".data ∈ nightlyPackagesToShow vcmpDemo fooBarObjs ["foo".data] 2)
    ∧ (nightlyPackagesToShow vcmpDemo fooBarObjs ["foo".data] 2).count (mkEntry "whl/nightly/foo-3.0-x.whl".data)
      = fooBarObjs.count (mkEntry "whl/nightly/foo-3.0-x.whl".data) :=
  ⟨by decide,
    (c10_retention_sublist vcmpDemo fooBarObjs ["foo".data] 2).2
      (mkEntry "whl/nightly/foo-3.0-x.whl".data) (by decide)⟩

/-- Claim C2: the retention filter is idempotent — re-running it on its
own output with the same allow-list and threshold (and the same external
comparator) returns that output unchanged. -/
theorem c2_retention_idempotent (vcmp : Str → Str → Bool) (objects : List S3Obj) (allow : List Str) (k : Nat) :
    nightlyPackagesToShow vcmp (nightlyPackagesToShow vcmp objects allow k) allow k
      = nightlyPackagesToShow vcmp objects allow k := by
  have hhide2 : retentionHide vcmp (nightlyPackagesToShow vcmp objects allow k) allow k = [] := by
    rw [retentionHide]
    apply hideLoop_no_new
    · intro n hn
      rcases List.mem_map.mp (mem_retentionOrder.mp hn) with ⟨o, ho, rfl⟩
      rcases mem_nightlyPackagesToShow.mp ho with ⟨hin, hnot⟩
      exact hideLoop_kept_allowed allow k (retentionOrder vcmp objects) (fun _ => 0) [] _
        (mem_retentionOrder.mpr (List.mem_map_of_mem _ hin)) hnot
    · intro name
      have hcount := hideLoop_count_le allow k (retentionOrder vcmp objects) (fun _ => 0) []
        (nodup_retentionOrder vcmp objects) (by simp) (fun _ => Nat.zero_le k) name
      have hsub : ((retentionOrder vcmp (nightlyPackagesToShow vcmp objects allow k)).filter
          (fun n => pkgOfNormalized n == name))
          ⊆ ((retentionOrder vcmp objects).filter
            (fun n => !((hideLoop allow k (retentionOrder vcmp objects) (fun _ => 0) []).2.contains n) && (pkgOfNormalized n == name))) := by
        intro x hx
        rcases List.mem_filter.mp hx with ⟨hx1, hx2⟩
        rcases List.mem_map.mp (mem_retentionOrder.mp hx1) with ⟨o, ho, rfl⟩
        rcases mem_nightlyPackagesToShow.mp ho with ⟨hin, hnot⟩
        refine List.mem_filter.mpr ⟨mem_retentionOrder.mpr (List.mem_map_of_mem _ hin), ?_⟩
        have hcont : (hideLoop allow k (retentionOrder vcmp objects) (fun _ => 0) []).2.contains (normalizePackageVersion o) = false :=
          contains_false_of_not_mem hnot
        rw [hcont, hx2]
        rfl
      have hnd : ((retentionOrder vcmp (nightlyPackagesToShow vcmp objects allow k)).filter
          (fun n => pkgOfNormalized n == name)).Nodup :=
        (nodup_retentionOrder vcmp _).filter _
      have hlen := List.Subperm.length_le (hnd.subperm hsub)
      omega
  conv_lhs => rw [nightlyPackagesToShow, hhide2]
  apply List.filter_eq_self.mpr
  intro o _
  rfl

/-- Counterexample to C3: under feed prefix `whl` with the configured
patterns, the raw key `whlacpu/f.whl` is yielded by the catalog filter,
yet its parent directory `whlacpu` neither equals the prefix nor is a
direct child of it matching a pattern (the spec-shaped condition rejects
it): the code tests the characters from index `|prefix|+1` on without
checking that the directory starts with `prefix + "/"`. -/
theorem c3_catalog_filter_counterexample :
    listObjectsWithPrefix configExtensions configPatterns "whl".data ["whlacpu/f.whl".data]
      = ["whlacpu/f.whl".data]
    ∧ specDirAccepts configPatterns "whl".data (dirnameC "whlacpu/f.whl".data) = false :=
  ⟨by decide, by decide⟩

/-- Claim C3 as amended: the catalog filter yields exactly the sanitized
forms of the nonempty keys whose suffix matches an accepted extension and
whose parent directory passes the code's directory test; that test
accepts the (normalized) feed prefix itself, and on any directory that
really is of the form `prefix ++ "/" ++ rest` it holds exactly when
`rest` is slash-free and matches one of the patterns — but, as the
counterexample shows, it can also accept directories that are not below
the prefix at all. -/
theorem c3_catalog_filter_amended (extensions : List Str) (patterns : List (Str → Bool)) (pfx : Str) (keys : List Str) :
    (matchesSubdirPattern patterns pfx pfx = true)
    ∧ (∀ rest : Str, matchesSubdirPattern patterns (pfx ++ '/' :: rest) pfx = true
        ↔ (rest.contains '/' = false ∧ patterns.any (fun p => p rest) = true))
    ∧ (∀ y : Str, y ∈ listObjectsWithPrefix extensions patterns pfx keys
        ↔ ∃ k, k ∈ keys ∧ k ≠ [] ∧ hasAcceptedExtension k extensions = true
          ∧ matchesSubdirPattern patterns (dirnameC k)
              (if pfx.getLast? == some '/' then pfx.dropLast else pfx) = true
          ∧ y = sanitizeKey k) := by
  refine ⟨?_, ?_, ?_⟩
  · rw [matchesSubdirPattern, if_pos (beq_self_eq_true pfx)]
  · intro rest
    have hne : ¬ ((pfx ++ '/' :: rest) == pfx) = true := by
      intro h
      have h' := eq_of_beq h
      have := congrArg List.length h'
      simp at this
    have hdrop : (pfx ++ '/' :: rest).drop (pfx.length + 1) = rest := by
      have h1 : pfx ++ '/' :: rest = (pfx ++ ['/']) ++ rest := by simp
      have h2 : pfx.length + 1 = (pfx ++ ['/']).length := by simp
      rw [h1, h2, List.drop_left]
    rw [matchesSubdirPattern, if_neg hne]
    simp only [hdrop]
    by_cases hc : rest.contains '/' = true
    · rw [if_pos hc]
      constructor
      · intro h; exact absurd h (by simp)
      · rintro ⟨h1, h2⟩; rw [hc] at h1; exact absurd h1 (by simp)
    · rw [if_neg hc]
      rw [Bool.not_eq_true] at hc
      constructor
      · intro h; exact ⟨hc, h⟩
      · rintro ⟨h1, h2⟩; exact h2
  · intro y
    rw [listObjectsWithPrefix, List.mem_filterMap]
    constructor
    · rintro ⟨k, hk, hfk⟩
      refine ⟨k, hk, ?_⟩
      by_cases h1 : k = []
      · rw [if_pos h1] at hfk; exact absurd hfk (by simp)
      · rw [if_neg h1] at hfk
        by_cases h2 : hasAcceptedExtension k extensions = true
        · rw [h2] at hfk
          simp only [Bool.not_true, Bool.false_eq_true, if_false] at hfk
          by_cases h3 : matchesSubdirPattern patterns (dirnameC k) (if pfx.getLast? == some '/' then pfx.dropLast else pfx) = true
          · rw [h3] at hfk
            simp only [Bool.not_true, Bool.false_eq_true, if_false] at hfk
            exact ⟨h1, h2, h3, (Option.some_inj.mp hfk).symm⟩
          · rw [Bool.not_eq_true] at h3
            rw [h3] at hfk
            simp at hfk
        · rw [Bool.not_eq_true] at h2
          rw [h2] at hfk
          simp at hfk
    · rintro ⟨k, hk, h1, h2, h3, rfl⟩
      refine ⟨k, hk, ?_⟩
      rw [if_neg h1, h2, h3]
      rfl

/-- Counterexample to C4: `YWJj-2` has the claimed composite-digest shape
(base64 payload `YWJj` followed by `-2`), but `MULTIPART_UPLOAD_REGEX`
requires a literal `=` before the dash, so `parseChecksum` does not
discard it — it surfaces its base64-to-hex decoding as a checksum. -/
theorem c4_checksum_counterexample :
    specCompositeShape "YWJj-2".data = true
    ∧ parseChecksum { checksumSHA256 := some "YWJj-2".data } ≠ none :=
  ⟨by decide, by decide⟩

/-- Claim C4 as amended: a `ChecksumSHA256` matching the code's
`MULTIPART_UPLOAD_REGEX` — base64 characters ending in `=` padding,
followed by `-<partCount>` — is always discarded (`parseChecksum` returns
nothing), and every such string does have the composite-digest shape; the
base64 encoding of any 32-byte SHA-256 digest ends in `=`, so genuine
composite digests are covered, but composite-shaped strings whose payload
lacks the `=` padding are decoded and surfaced instead. -/
theorem c4_checksum_amended (r : HeadResp) (s : Str) (h1 : r.checksumSHA256 = some s) (h2 : multipartMatch s = true) :
    parseChecksum r = none ∧ specCompositeShape s = true := by
  constructor
  · rw [parseChecksum, h1]
    simp [h2]
  · rw [specCompositeShape]
    rw [multipartMatch] at h2
    split at h2
    · rename_i p d heq
      simp only [Bool.and_eq_true, decide_eq_true_eq] at h2
      obtain ⟨⟨⟨⟨hlen, hall⟩, _⟩, hd1⟩, hd2⟩ := h2
      have hp : p.isEmpty = false := by
        cases p
        · simp at hlen
        · simp
      simp [hp, hall, hd1, hd2]
    · exact absurd h2 (by simp)

/-- Witness for the amended C4 at a concrete composite digest
`YWJjZA==-5`: the regex matches and `parseChecksum` discards it. -/
theorem c4_checksum_amended_witness :
    ({ checksumSHA256 := some "YWJjZA==-5".data } : HeadResp).checksumSHA256 = some "YWJjZA==-5".data
    ∧ multipartMatch "YWJjZA==-5".data = true
    ∧ (parseChecksum { checksumSHA256 := some "YWJjZA==-5".data } = none
      ∧ specCompositeShape "YWJjZA==-5".data = true) :=
  ⟨rfl, by decide, c4_checksum_amended _ _ rfl (by decide)⟩

theorem joinLines_last (body : List Str) (x : Str) (h : body ≠ []) : joinLines (body ++ [x]) = (joinLines body ++ ['\n']) ++ x := by
  rw [joinLines_append_singleton x body h, List.append_assoc]
  rfl

theorem generateSimplePackagesHtml_split (names : List Str) (now : Nat) :
    generateSimplePackagesHtml names now
      = (joinLines (["<!DOCTYPE html>".data, "<html>".data, "  <body>".data]
          ++ (sortNames names).map (fun pkgName =>
            "    <a href=\"".data ++ underToDash pkgName ++ "/\">".data
              ++ underToDash pkgName ++ "</a><br/>".data)
          ++ ["  </body>".data, "</html>".data]) ++ ['\n']) ++ tsComment now := by
  rw [generateSimplePackagesHtml]
  rw [show ["  </body>".data, "</html>".data, tsComment now]
      = ["  </body>".data, "</html>".data] ++ [tsComment now] from rfl]
  rw [← List.append_assoc]
  rw [joinLines_last _ _ (by simp)]

theorem generateSimplePackageHtml_split (objects : List S3Obj) (packageName : Str) (isNightly : Bool) (now : Nat) :
    generateSimplePackageHtml objects packageName isNightly now
      = (joinLines (["<!DOCTYPE html>".data, "<html>".data, "  <body>".data,
          "    <h1>Links for ".data ++ underToDash (toLowerStr packageName) ++ "</h1>".data]
          ++ (sortByKey objects).map (renderLink isNightly)
          ++ ["  </body>".data, "</html>".data]) ++ ['\n']) ++ tsComment now := by
  rw [generateSimplePackageHtml]
  rw [show ["  </body>".data, "</html>".data, tsComment now]
      = ["  </body>".data, "</html>".data] ++ [tsComment now] from rfl]
  rw [← List.append_assoc]
  rw [joinLines_last _ _ (by simp)]

/-- Counterexample to C5: on a one-entry input the raw-listing renderer's
whole output is a single link line — it does not end with a trailing
`<!--TIMESTAMP <epoch-seconds>-->` comment (unlike the other two
renderers, it appends none). -/
theorem c5_libtorch_timestamp_counterexample :
    generateLibtorchHtml [mkEntry "libtorch/cu118/libtorch-2.0.0.zip".data] "libtorch/cu118".data "libtorch".data
      = "<a href=\"/libtorch/cu118/libtorch-2.0.0.zip\">libtorch-2.0.0.zip</a><br/>".data
    ∧ ¬ ∃ t n : Str,
        generateLibtorchHtml [mkEntry "libtorch/cu118/libtorch-2.0.0.zip".data] "libtorch/cu118".data "libtorch".data
          = t ++ ("<!--TIMESTAMP ".data ++ n ++ "-->".data) := by
  refine ⟨by decide, ?_⟩
  rintro ⟨t, n, h⟩
  have hsuf : "-->".data <:+ generateLibtorchHtml [mkEntry "libtorch/cu118/libtorch-2.0.0.zip".data] "libtorch/cu118".data "libtorch".data := by
    refine ⟨t ++ ("<!--TIMESTAMP ".data ++ n), ?_⟩
    rw [h]
    simp [List.append_assoc]
  revert hsuf
  decide

/-- Claim C5 as amended: `generateLibtorchHtml` appends no timestamp
comment — its output is empty or ends with `<br/>` (the last entry line) —
while the package-listing and per-package renderers do end with the
`<!--TIMESTAMP <epoch-seconds>-->` comment. -/
theorem c5_timestamp_amended (objects : List S3Obj) (subdir pfx : Str) :
    (generateLibtorchHtml objects subdir pfx = []
      ∨ ∃ t : Str, generateLibtorchHtml objects subdir pfx = t ++ "<br/>".data)
    ∧ (∀ (names : List Str) (now : Nat), ∃ t : Str,
        generateSimplePackagesHtml names now = t ++ tsComment now)
    ∧ (∀ (objs : List S3Obj) (pkgName : Str) (isNightly : Bool) (now : Nat), ∃ t : Str,
        generateSimplePackageHtml objs pkgName isNightly now = t ++ tsComment now) := by
  refine ⟨?_, ?_, ?_⟩
  · rw [generateLibtorchHtml]
    apply joinLines_suffix
    intro x hx
    have hx' := (List.perm_insertionSort _ _).mem_iff.mp hx
    rcases List.mem_filterMap.mp hx' with ⟨obj, _, hobj⟩
    have hx2 : x = libtorchEntry subdir obj := by
      by_cases hroot : (!(subdir == pfx) && (dirnameC obj.key == pfx)) = true
      · rw [if_pos hroot] at hobj; exact absurd hobj (by simp)
      · rw [if_neg hroot] at hobj; exact (Option.some_inj.mp hobj).symm
    refine ⟨"<a href=\"/".data ++ obj.key ++ "\">".data
      ++ (if (if subdir.isPrefixOf obj.key then obj.key.drop subdir.length else obj.key).head? == some '/'
          then (if subdir.isPrefixOf obj.key then obj.key.drop subdir.length else obj.key).drop 1
          else (if subdir.isPrefixOf obj.key then obj.key.drop subdir.length else obj.key))
      ++ "</a>".data, ?_⟩
    rw [hx2, libtorchEntry]
    simp [List.append_assoc]
  · intro names now
    exact ⟨_, generateSimplePackagesHtml_split names now⟩
  · intro objs pkgName isNightly now
    exact ⟨_, generateSimplePackageHtml_split objs pkgName isNightly now⟩

/-- Claim C9: the package-listing and per-package renderers are
deterministic modulo the timestamp: for a fixed input, two renderings at
different times share one common prefix and differ only in the trailing
`<!--TIMESTAMP ...-->` text. -/
theorem c9_renderers_deterministic (names : List Str) (objects : List S3Obj) (packageName : Str) (isNightly : Bool) (now1 now2 : Nat) :
    (∃ t : Str, generateSimplePackagesHtml names now1 = t ++ tsComment now1
      ∧ generateSimplePackagesHtml names now2 = t ++ tsComment now2)
    ∧ ∃ u : Str, generateSimplePackageHtml objects packageName isNightly now1 = u ++ tsComment now1
      ∧ generateSimplePackageHtml objects packageName isNightly now2 = u ++ tsComment now2 :=
  ⟨⟨_, generateSimplePackagesHtml_split names now1, generateSimplePackagesHtml_split names now2⟩,
    ⟨_, generateSimplePackageHtml_split objects packageName isNightly now1,
      generateSimplePackageHtml_split objects packageName isNightly now2⟩⟩

theorem orderedInsert_map {α β : Type} (r : α → α → Prop) (s : β → β → Prop) [DecidableRel r] [DecidableRel s] (f : α → β) (hf : ∀ a b, s (f a) (f b) ↔ r a b) (a : α) : ∀ (l : List α), (l.map f).orderedInsert s (f a) = (l.orderedInsert r a).map f
  | [] => rfl
  | b :: t => by
    by_cases hr : r a b
    · simp only [List.map_cons, List.orderedInsert, if_pos hr, if_pos ((hf a b).mpr hr), List.map_cons]
    · simp only [List.map_cons, List.orderedInsert, if_neg hr, if_neg (fun hs => hr ((hf a b).mp hs)), List.map_cons]
      rw [orderedInsert_map r s f hf a t]

theorem insertionSort_map {α β : Type} (r : α → α → Prop) (s : β → β → Prop) [DecidableRel r] [DecidableRel s] (f : α → β) (hf : ∀ a b, s (f a) (f b) ↔ r a b) : ∀ (l : List α), (l.map f).insertionSort s = (l.insertionSort r).map f
  | [] => rfl
  | a :: t => by
    simp only [List.map_cons, List.insertionSort]
    rw [insertionSort_map r s f hf t, orderedInsert_map r s f hf a]

theorem sortByKey_map_erase (objects : List S3Obj) : sortByKey (objects.map eraseChecksum) = (sortByKey objects).map eraseChecksum := by
  rw [sortByKey, sortByKey]
  exact insertionSort_map _ _ eraseChecksum (fun a b => Iff.rfl) objects

theorem renderLink_nightly_ignores_checksum (o : S3Obj) : renderLink true (eraseChecksum o) = renderLink true o := by
  cases hc : o.checksum with
  | none =>
    have : eraseChecksum o = o := by
      cases o
      simp only [eraseChecksum] at hc ⊢
      simp_all
    rw [this]
  | some c =>
    simp only [renderLink, eraseChecksum, hc, Bool.not_true, Bool.and_false, if_false]
    rfl

/-- Claim C6: when rendering a rolling/nightly feed the per-package
renderer attaches no `#sha256=` fragment — its output is the same as if
no entry had a checksum at all — while for a non-nightly feed an entry
carrying a (nonempty) checksum gets the `#sha256=<checksum>` fragment on
its link line. -/
theorem c6_nightly_omits_checksum_fragment :
    (∀ (objects : List S3Obj) (packageName : Str) (now : Nat),
      generateSimplePackageHtml objects packageName true now
        = generateSimplePackageHtml (objects.map eraseChecksum) packageName true now)
    ∧ ∀ (obj : S3Obj) (c : Str), obj.checksum = some c → c ≠ [] →
      renderLink false obj
        = "    <a href=\"/".data ++ obj.key ++ "#sha256=".data ++ c ++ "\"".data
          ++ linkAttrs obj ++ ">".data ++ decode2B (basenameC obj.key) ++ "</a><br/>".data := by
  constructor
  · intro objects packageName now
    rw [generateSimplePackageHtml, generateSimplePackageHtml, sortByKey_map_erase, List.map_map]
    have : (renderLink true ∘ eraseChecksum) = renderLink true := by
      funext o
      exact renderLink_nightly_ignores_checksum o
    rw [this]
  · intro obj c h1 h2
    have hce : c.isEmpty = false := by
      cases c
      · exact absurd rfl h2
      · rfl
    simp only [renderLink, h1, hce, Bool.not_false, Bool.not_true, Bool.and_false, Bool.true_and,
      if_true, if_false]
    simp [List.append_assoc]

/-- A torch wheel entry carrying a checksum, for the C6 witness. -/
def torchChk : S3Obj :=
  { key := "whl/cpu/torch-2.0.0-py3-none-any.whl".data,
    origKey := "whl/cpu/torch-2.0.0-py3-none-any.whl".data,
    checksum := some "abc123".data }

/-- Witness for C6: the non-nightly link line of a concrete entry with
checksum `abc123` carries the `#sha256=abc123` fragment. -/
theorem c6_nightly_omits_checksum_fragment_witness :
    torchChk.checksum = some "abc123".data ∧ "abc123".data ≠ ([] : Str)
    ∧ renderLink false torchChk
      = "    <a href=\"/".data ++ torchChk.key ++ "#sha256=".data ++ "abc123".data ++ "\"".data
        ++ linkAttrs torchChk ++ ">".data ++ decode2B (basenameC torchChk.key) ++ "</a><br/>".data :=
  ⟨rfl, by decide, c6_nightly_omits_checksum_fragment.2 torchChk "abc123".data rfl (by decide)⟩

theorem listObjects_out_sanitized {extensions : List Str} {patterns : List (Str → Bool)} {pfx : Str} {keys : List Str} {k : Str} (hk : k ∈ listObjectsWithPrefix extensions patterns pfx keys) : ∃ raw, k = sanitizeKey raw := by
  rcases List.mem_filterMap.mp hk with ⟨raw, _, hraw⟩
  split_ifs at hraw
  all_goals first
    | exact Option.noConfusion hraw
    | exact ⟨raw, (Option.some_inj.mp hraw).symm⟩

/-- Claim C7: every catalog entry built by the pipeline from a listed key
has `origKey` equal to `key` with every `%2B` decoded back to `+`, and
re-encoding `origKey` (every `+` to `%2B`) gives back `key` exactly —
because listed keys are sanitized and therefore contain no `+`. -/
theorem c7_key_origKey_roundtrip (extensions : List Str) (patterns : List (Str → Bool)) (pfx : Str) (keys : List Str) (k : Str) (hk : k ∈ listObjectsWithPrefix extensions patterns pfx keys) :
    (mkEntry k).origKey = decode2B (mkEntry k).key
    ∧ sanitizeKey (mkEntry k).origKey = (mkEntry k).key := by
  refine ⟨rfl, ?_⟩
  rcases listObjects_out_sanitized hk with ⟨raw, rfl⟩
  show sanitizeKey (decode2B (sanitizeKey raw)) = sanitizeKey raw
  exact sanitizeKey_decode2B _ (plus_not_mem_sanitizeKey raw)

/-- Witness for C7 at a concrete listed key containing `%2B`. -/
theorem c7_key_origKey_roundtrip_witness :
    ("whl/cpu/torch-1.0%2Bcpu.whl".data ∈ listObjectsWithPrefix configExtensions configPatterns "whl".data ["whl/cpu/torch-1.0+cpu.whl".data])
    ∧ ((mkEntry "whl/cpu/torch-1.0%2Bcpu.whl".data).origKey = decode2B (mkEntry "whl/cpu/torch-1.0%2Bcpu.whl".data).key
      ∧ sanitizeKey (mkEntry "whl/cpu/torch-1.0%2Bcpu.whl".data).origKey = (mkEntry "whl/cpu/torch-1.0%2Bcpu.whl".data).key) :=
  ⟨by decide,
    c7_key_origKey_roundtrip configExtensions configPatterns "whl".data
      ["whl/cpu/torch-1.0+cpu.whl".data] "whl/cpu/torch-1.0%2Bcpu.whl".data (by decide)⟩

set_option maxRecDepth 40000 in
/-- Claim C8: the per-package renderer sorts entries by full key
ascending: its sort is sorted under the (code-unit lexicographic) key
order and is a permutation of the input; on the spec's example the keys
come out in the order `2.0.0`, `2.0.1`, `2.1.0`, and rendering the
example in any input order gives the same page. -/
theorem c8_perpackage_sorted_by_key_ascending :
    (∀ objects : List S3Obj, List.Sorted (fun a b => lexLe a.key b.key = true) (sortByKey objects))
    ∧ (∀ objects : List S3Obj, (sortByKey objects).Perm objects)
    ∧ (sortByKey [mkEntry "whl/torch-2.1.0-py3-none-any.whl".data, mkEntry "whl/torch-2.0.0-py3-none-any.whl".data, mkEntry "whl/torch-2.0.1-py3-none-any.whl".data]).map S3Obj.key
      = ["whl/torch-2.0.0-py3-none-any.whl".data, "whl/torch-2.0.1-py3-none-any.whl".data, "whl/torch-2.1.0-py3-none-any.whl".data]
    ∧ generateSimplePackageHtml [mkEntry "whl/torch-2.1.0-py3-none-any.whl".data, mkEntry "whl/torch-2.0.0-py3-none-any.whl".data, mkEntry "whl/torch-2.0.1-py3-none-any.whl".data] "torch".data false 0
      = generateSimplePackageHtml [mkEntry "whl/torch-2.0.0-py3-none-any.whl".data, mkEntry "whl/torch-2.0.1-py3-none-any.whl".data, mkEntry "whl/torch-2.1.0-py3-none-any.whl".data] "torch".data false 0 := by
  refine ⟨?_, ?_, by decide, by decide⟩
  · intro objects
    letI : IsTotal S3Obj (fun a b => lexLe a.key b.key = true) := ⟨fun a b => lexLe_total a.key b.key⟩
    letI : IsTrans S3Obj (fun a b => lexLe a.key b.key = true) := ⟨fun a b c => lexLe_trans a.key b.key c.key⟩
    exact List.sorted_insertionSort _ objects
  · intro objects
    exact List.perm_insertionSort _ objects
